import Mathlib

/-!
Shallow embedding of the code in `GroverSearch_AlternatingBits.ipynb`:
the three Q# operations `AlternatingBitStringOracle`, `Diffusion` and
`Grovers`, and the Python helper `plot_job_results`.

A state of the `n`-qubit register is represented by its amplitude function
on computational-basis states.  Every gate the notebook applies (CNOT,
controlled Z, X, H) has real matrix entries, and apart from `H` they have
rational ones, so we work with rational amplitudes and embed the Hadamard
gate scaled by `√2` (`applyHtilde` below is `√2 · H`).  Probability
statements are phrased through the scale-invariant ratio `markedProb`,
which the scaling leaves untouched.
-/

namespace GroverNotebook

/-- A computational-basis state of `n` qubits: the bit read by each qubit. -/
abbrev Basis (n : ℕ) := Fin n → Bool

/-- An (unnormalised) state of the `n`-qubit register: the amplitude at
every basis state. -/
abbrev QState (n : ℕ) := Basis n → ℚ

/-- The basis-state permutation implemented by `CNOT(qs[i], qs[i - 1])`:
the bit at position `i - 1` becomes `qs[i - 1] XOR qs[i]`.  The map is
total in `i`; it acts only when the target `j = i - 1` and the control `i`
are genuine positions, which holds for every call the notebook makes
(the checked semantics `oracleChecked` settles the out-of-range calls). -/
def cnotStep (n : ℕ) (i : ℕ) (x : Basis n) : Basis n :=
  fun j => if h : (j : ℕ) + 1 = i ∧ i < n then Bool.xor (x j) (x ⟨i, h.2⟩) else x j

/-- State semantics of the loop `for i in 1 .. k { CNOT(qs[i], qs[i - 1]); }`:
the gates are applied in ascending order of `i`, so gate `i = k` acts last.
Applying a self-inverse basis permutation `m` to a state precomposes the
amplitude function with `m`. -/
def applyCnots (n : ℕ) : ℕ → QState n → QState n
  | 0, ψ => ψ
  | k + 1, ψ => fun x => applyCnots n k ψ (cnotStep n (k + 1) x)

/-- State semantics of the adjoint of that loop: the same self-adjoint
gates in the reverse order, gate `i = k` acting first. -/
def applyCnotsRev (n : ℕ) : ℕ → QState n → QState n
  | 0, ψ => ψ
  | k + 1, ψ => applyCnotsRev n k (fun x => ψ (cnotStep n (k + 1) x))

/-- The bit of `x` at the 0-based position `i`, read the way the Q# runtime
reads `qs[i]`; out-of-range positions are settled by the checked semantics
below and never arise in the notebook's in-range calls. -/
def bitAt (n : ℕ) (x : Basis n) (i : ℕ) : Bool :=
  if h : i < n then x ⟨i, h⟩ else false

/-- `Controlled Z(controls, target)`: the amplitude of a basis state
changes sign exactly when every control qubit and the target qubit read 1. -/
def applyControlledZ (n : ℕ) (ctrls : List ℕ) (tgt : ℕ) (ψ : QState n) : QState n :=
  fun x => (if ctrls.all (fun c => bitAt n x c) && bitAt n x tgt then -1 else 1) * ψ x

/-- `AlternatingBitStringOracle` from the notebook:
`within { for i in 1 .. Length(qs) - 1 { CNOT(qs[i], qs[i - 1]); } }`
`apply { Controlled Z(qs[0 .. Length(qs) - 3], qs[Length(qs) - 2]); }`.
The slice `qs[0 .. Length(qs) - 3]` is the position list
`List.range (n - 2)` and the target sits at position `n - 2`. -/
def AlternatingBitStringOracle (n : ℕ) (ψ : QState n) : QState n :=
  applyCnotsRev n (n - 1)
    (applyControlledZ n (List.range (n - 2)) (n - 2)
      (applyCnots n (n - 1) ψ))

/-- The X gate on qubit `q`: flips the basis bit at `q`. -/
def applyX (n : ℕ) (q : Fin n) (ψ : QState n) : QState n :=
  fun x => ψ (Function.update x q (!(x q)))

/-- The Hadamard gate on qubit `q`, scaled by `√2`. -/
def applyHtilde (n : ℕ) (q : Fin n) (ψ : QState n) : QState n :=
  fun x =>
    ψ (Function.update x q false) + (if x q then -1 else 1) * ψ (Function.update x q true)

/-- `ApplyToEachA(op, qs)` (and likewise `ApplyToEach`): the single-qubit
gate applied to the listed qubits in order, head first. -/
def applyToEach (n : ℕ) (g : Fin n → QState n → QState n) :
    List (Fin n) → QState n → QState n
  | [], ψ => ψ
  | q :: qs, ψ => applyToEach n g qs (g q ψ)

/-- The allocated register `qs` as the list of its qubits in index order. -/
def qubitList (n : ℕ) : List (Fin n) := List.finRange n

/-- `Diffusion` from the notebook:
`within { ApplyToEachA(H, qs); ApplyToEachA(X, qs); }`
`apply { Controlled Z(Most(qs), Tail(qs)); }`.
`Most(qs)` is the position list `List.range (n - 1)` and `Tail(qs)` sits at
position `n - 1`.  The adjoint of the within block applies `Adjoint X = X`
and then `Adjoint H = H`, each layer over the reversed qubit list.  Each of
the `2 n` Hadamard gates carries the `√2` scale, so this embedding is
`2 ^ n` times the notebook's operator. -/
def Diffusion (n : ℕ) (ψ : QState n) : QState n :=
  applyToEach n (applyHtilde n) (qubitList n).reverse
    (applyToEach n (applyX n) (qubitList n).reverse
      (applyControlledZ n (List.range (n - 1)) (n - 1)
        (applyToEach n (applyX n) (qubitList n)
          (applyToEach n (applyHtilde n) (qubitList n) ψ))))

/-- `use qs = Qubit[N]`: a freshly allocated register holds `|0…0⟩`. -/
def initState (n : ℕ) : QState n :=
  fun x => if x = (fun _ => false) then 1 else 0

/-- The quantum part of `Grovers(iterations, N)`: allocate `N` qubits,
`ApplyToEach(H, qs)`, then
`for i in 1 .. iterations { AlternatingBitStringOracle(qs); Diffusion(qs); }`. -/
def GroversState (iterations n : ℕ) : QState n :=
  (List.range' 1 iterations).foldl
    (fun ψ _ => Diffusion n (AlternatingBitStringOracle n ψ))
    (applyToEach n (applyHtilde n) (qubitList n) (initState n))

/-- The values the final `return ForEach(M, qs)` can produce: every basis
state carrying nonzero amplitude, as the list of per-qubit measurement
results in register order. -/
def GroversOutcomes (iterations n : ℕ) : Finset (List Bool) :=
  (Finset.univ.filter fun x : Basis n => GroversState iterations n x ≠ 0).image
    fun x => List.ofFn x

/-- The predicate the oracle implements: no two adjacent bits are equal. -/
def alternating (n : ℕ) (x : Basis n) : Prop :=
  ∀ i j : Fin n, (j : ℕ) = (i : ℕ) + 1 → x i ≠ x j

instance (n : ℕ) (x : Basis n) : Decidable (alternating n x) := by
  unfold alternating; infer_instance

/-- The two alternating strings of length `n`: `altString n true = 1010…`
and `altString n false = 0101…`. -/
def altString (n : ℕ) (b : Bool) : Basis n :=
  fun i => Bool.xor b (decide ((i : ℕ) % 2 = 1))

/-- The squared amplitude carried by the alternating (marked) strings. -/
def markedSum (n : ℕ) (ψ : QState n) : ℚ :=
  ∑ x ∈ Finset.univ.filter (fun x : Basis n => alternating n x), ψ x ^ 2

/-- The total squared amplitude of a state. -/
def totalSum (n : ℕ) (ψ : QState n) : ℚ :=
  ∑ x : Basis n, ψ x ^ 2

/-- The probability that measuring every qubit yields an alternating
string: the marked fraction of the squared amplitude (invariant under the
`√2` scaling of the embedding). -/
def markedProb (n : ℕ) (ψ : QState n) : ℚ :=
  markedSum n ψ / totalSum n ψ

/-! ### The oracle is a diagonal phase on basis states -/

/-- The composite basis permutation of the within loop run forwards
(gate `i = k` applied last to the basis state). -/
def fwdChain (n : ℕ) : ℕ → Basis n → Basis n
  | 0, x => x
  | k + 1, x => cnotStep n (k + 1) (fwdChain n k x)

/-- The composite basis permutation of the within loop run backwards
(gate `i = k` applied first to the basis state). -/
def invChain (n : ℕ) : ℕ → Basis n → Basis n
  | 0, x => x
  | k + 1, x => invChain n k (cnotStep n (k + 1) x)

lemma cnotStep_apply_pos (n i : ℕ) (x : Basis n) (j : Fin n)
    (h : (j : ℕ) + 1 = i ∧ i < n) :
    cnotStep n i x j = Bool.xor (x j) (x ⟨i, h.2⟩) := dif_pos h

lemma cnotStep_apply_neg (n i : ℕ) (x : Basis n) (j : Fin n)
    (h : ¬((j : ℕ) + 1 = i ∧ i < n)) :
    cnotStep n i x j = x j := dif_neg h

lemma cnotStep_cnotStep (n i : ℕ) (x : Basis n) :
    cnotStep n i (cnotStep n i x) = x := by
  funext j
  by_cases h : (j : ℕ) + 1 = i ∧ i < n
  · rw [cnotStep_apply_pos n i _ j h, cnotStep_apply_pos n i x j h,
      cnotStep_apply_neg n i x ⟨i, h.2⟩ (show ¬(i + 1 = i ∧ i < n) by omega)]
    simp [Bool.xor_assoc]
  · rw [cnotStep_apply_neg n i _ j h, cnotStep_apply_neg n i x j h]

lemma applyCnots_eval (n k : ℕ) (ψ : QState n) (x : Basis n) :
    applyCnots n k ψ x = ψ (invChain n k x) := by
  induction k generalizing x with
  | zero => rfl
  | succ k ih =>
    simp only [applyCnots, invChain]
    exact ih (cnotStep n (k + 1) x)

lemma applyCnotsRev_eval (n k : ℕ) (ψ : QState n) (x : Basis n) :
    applyCnotsRev n k ψ x = ψ (fwdChain n k x) := by
  induction k generalizing ψ x with
  | zero => rfl
  | succ k ih =>
    simp only [applyCnotsRev, fwdChain]
    rw [ih]

lemma invChain_fwdChain (n k : ℕ) (x : Basis n) :
    invChain n k (fwdChain n k x) = x := by
  induction k generalizing x with
  | zero => rfl
  | succ k ih =>
    simp only [fwdChain, invChain, cnotStep_cnotStep]
    exact ih x

lemma fwdChain_high (n : ℕ) (x : Basis n) (j : Fin n) :
    ∀ k, k ≤ (j : ℕ) → fwdChain n k x j = x j := by
  intro k
  induction k with
  | zero => intro _; rfl
  | succ k ih =>
    intro hj
    simp only [fwdChain]
    rw [cnotStep_apply_neg n (k + 1) _ j (by omega)]
    exact ih (by omega)

lemma fwdChain_low (n : ℕ) (x : Basis n) (j : Fin n) (hjn : (j : ℕ) + 1 < n) :
    ∀ k, (j : ℕ) < k → fwdChain n k x j = Bool.xor (x j) (x ⟨(j : ℕ) + 1, hjn⟩) := by
  intro k
  induction k with
  | zero => intro hj; exact absurd hj (Nat.not_lt_zero _)
  | succ k ih =>
    intro hj
    simp only [fwdChain]
    by_cases hjk : (j : ℕ) + 1 = k + 1
    · have hkn : k + 1 < n := by omega
      rw [cnotStep_apply_pos n (k + 1) _ j ⟨hjk, hkn⟩]
      rw [fwdChain_high n x j k (by omega), fwdChain_high n x ⟨k + 1, hkn⟩ k (Nat.le_succ k)]
      have hfe : (⟨k + 1, hkn⟩ : Fin n) = ⟨(j : ℕ) + 1, hjn⟩ := by
        simp only [Fin.mk.injEq]; omega
      rw [hfe]
    · rw [cnotStep_apply_neg n (k + 1) _ j (by omega)]
      exact ih (by omega)

/-- The sign the apply block's controlled Z attaches to the basis state it
sees: `-1` exactly when the controls (positions `0 … n - 3`) and the target
(position `n - 2`) all read 1. -/
def oracleSign (n : ℕ) (y : Basis n) : ℚ :=
  if ((List.range (n - 2)).all fun c => bitAt n y c) && bitAt n y (n - 2) then -1 else 1

lemma oracle_eval (n : ℕ) (ψ : QState n) (x : Basis n) :
    AlternatingBitStringOracle n ψ x = oracleSign n (fwdChain n (n - 1) x) * ψ x := by
  unfold AlternatingBitStringOracle
  rw [applyCnotsRev_eval]
  simp only [applyControlledZ, oracleSign]
  rw [applyCnots_eval, invChain_fwdChain]

lemma bitAt_fwdChain (n : ℕ) (x : Basis n) (c : ℕ) (hc : c + 1 < n) :
    bitAt n (fwdChain n (n - 1) x) c = Bool.xor (x ⟨c, by omega⟩) (x ⟨c + 1, hc⟩) := by
  rw [bitAt, dif_pos (by omega : c < n)]
  exact fwdChain_low n x ⟨c, by omega⟩ hc (n - 1) (show c < n - 1 by omega)

lemma alternating_iff_adjacent (n : ℕ) (x : Basis n) :
    alternating n x ↔
      ∀ c : ℕ, (h : c + 1 < n) → x ⟨c, by omega⟩ ≠ x ⟨c + 1, h⟩ := by
  constructor
  · intro halt c h
    exact halt ⟨c, by omega⟩ ⟨c + 1, h⟩ rfl
  · intro h i j hij
    have hj := j.isLt
    have h1 : (i : ℕ) + 1 < n := by omega
    have hadj := h (i : ℕ) h1
    rw [Fin.eta] at hadj
    have hje : (⟨(i : ℕ) + 1, h1⟩ : Fin n) = j := Fin.ext hij.symm
    rwa [hje] at hadj

lemma oracle_cond_iff (n : ℕ) (hn : 2 ≤ n) (x : Basis n) :
    ((((List.range (n - 2)).all fun c => bitAt n (fwdChain n (n - 1) x) c)
        && bitAt n (fwdChain n (n - 1) x) (n - 2)) = true)
      ↔ alternating n x := by
  rw [Bool.and_eq_true, List.all_eq_true, alternating_iff_adjacent]
  constructor
  · rintro ⟨hall, htgt⟩ c hc
    rw [← Bool.xor_iff_ne, ← bitAt_fwdChain n x c hc]
    by_cases hsmall : c < n - 2
    · exact hall c (List.mem_range.mpr hsmall)
    · have hce : c = n - 2 := by omega
      rw [hce]; exact htgt
  · intro h
    constructor
    · intro c hcmem
      have hc : c + 1 < n := by
        have := List.mem_range.mp hcmem; omega
      rw [bitAt_fwdChain n x c hc, Bool.xor_iff_ne]
      exact h c hc
    · have hc : (n - 2) + 1 < n := by omega
      rw [bitAt_fwdChain n x (n - 2) hc, Bool.xor_iff_ne]
      exact h (n - 2) hc

lemma oracle_diag (n : ℕ) (hn : 2 ≤ n) (ψ : QState n) (x : Basis n) :
    AlternatingBitStringOracle n ψ x = (if alternating n x then -1 else 1) * ψ x := by
  rw [oracle_eval]
  unfold oracleSign
  by_cases h : alternating n x
  · rw [if_pos ((oracle_cond_iff n hn x).mpr h), if_pos h]
  · rw [if_neg (fun hc => h ((oracle_cond_iff n hn x).mp hc)), if_neg h]

/-! ### Exactly two basis states satisfy the oracle's predicate -/

lemma altString_alternating (n : ℕ) (b : Bool) : alternating n (altString n b) := by
  rw [alternating_iff_adjacent]
  intro c hc
  simp only [altString]
  rcases Nat.mod_two_eq_zero_or_one c with h | h
  · have h1 : (c + 1) % 2 = 1 := by omega
    simp [h, h1]
  · have h1 : (c + 1) % 2 = 0 := by omega
    simp [h, h1]

lemma bool_ne_iff_eq_not (a b : Bool) : a ≠ b → a = !b := by
  cases a <;> cases b <;> simp

lemma alternating_eq_altString (n : ℕ) (x : Basis n) (hx : alternating n x)
    (hn : 0 < n) : ∀ c : ℕ, (h : c < n) →
      x ⟨c, h⟩ = Bool.xor (x ⟨0, hn⟩) (decide (c % 2 = 1)) := by
  intro c
  induction c with
  | zero => intro h; simp
  | succ c ih =>
    intro h
    have hc : c < n := by omega
    have hadj := (alternating_iff_adjacent n x).mp hx c h
    have hne : x ⟨c + 1, h⟩ = !(x ⟨c, hc⟩) := bool_ne_iff_eq_not _ _ (Ne.symm hadj)
    rw [hne, ih hc]
    rcases Nat.mod_two_eq_zero_or_one c with hp | hp
    · have h1 : (c + 1) % 2 = 1 := by omega
      simp [hp, h1]
    · have h1 : (c + 1) % 2 = 0 := by omega
      simp [hp, h1]

lemma alternating_filter_eq (n : ℕ) (hn : 1 ≤ n) :
    Finset.univ.filter (fun x : Basis n => alternating n x)
      = {altString n false, altString n true} := by
  ext x
  simp only [Finset.mem_filter, Finset.mem_univ, true_and, Finset.mem_insert,
    Finset.mem_singleton]
  constructor
  · intro h
    have hx : x = altString n (x ⟨0, by omega⟩) := by
      funext i
      have := alternating_eq_altString n x h (by omega) (i : ℕ) i.isLt
      rw [Fin.eta] at this
      exact this
    cases hb : x ⟨0, by omega⟩ with
    | false => left; rw [hx, hb]
    | true => right; rw [hx, hb]
  · rintro (rfl | rfl) <;> exact altString_alternating n _

lemma altString_false_ne_true (n : ℕ) (hn : 1 ≤ n) :
    altString n false ≠ altString n true := by
  intro h
  have := congrFun h ⟨0, by omega⟩
  simp [altString] at this

lemma alternating_card (n : ℕ) (hn : 1 ≤ n) :
    (Finset.univ.filter (fun x : Basis n => alternating n x)).card = 2 := by
  rw [alternating_filter_eq n hn]
  rw [Finset.card_insert_of_not_mem (by
    simp only [Finset.mem_singleton]
    exact altString_false_ne_true n hn), Finset.card_singleton]

/-! ### The diffusion operator reflects amplitudes about zero after
subtracting twice the total, i.e. it inverts about the mean up to the
`2 ^ n` scale of its two Hadamard layers -/

lemma applyHtilde_applyHtilde (n : ℕ) (q : Fin n) (ψ : QState n) :
    applyHtilde n q (applyHtilde n q ψ) = fun x => 2 * ψ x := by
  funext x
  simp only [applyHtilde, Function.update_idem, Function.update_same]
  by_cases h : x q
  · have hx : Function.update x q true = x := by rw [← h]; exact Function.update_eq_self q x
    rw [if_pos h, hx]
    simp only [if_true, if_false, Bool.false_eq_true]
    ring
  · have hx : Function.update x q false = x := by
      have hf : false = x q := by simp [h]
      rw [hf]; exact Function.update_eq_self q x
    rw [if_neg h, hx]
    simp only [Bool.false_eq_true, if_false, if_true]
    ring

lemma applyHtilde_smul (n : ℕ) (q : Fin n) (c : ℚ) (ψ : QState n) :
    applyHtilde n q (fun x => c * ψ x) = fun x => c * applyHtilde n q ψ x := by
  funext x
  simp only [applyHtilde]
  ring

lemma applyHtilde_sub (n : ℕ) (q : Fin n) (ψ χ : QState n) :
    applyHtilde n q (fun x => ψ x - χ x) = fun x => applyHtilde n q ψ x - applyHtilde n q χ x := by
  funext x
  simp only [applyHtilde]
  ring

lemma applyToEach_htilde_smul (n : ℕ) (l : List (Fin n)) (c : ℚ) (ψ : QState n) :
    applyToEach n (applyHtilde n) l (fun x => c * ψ x)
      = fun x => c * applyToEach n (applyHtilde n) l ψ x := by
  induction l generalizing ψ with
  | nil => rfl
  | cons q t ih =>
    show applyToEach n (applyHtilde n) t (applyHtilde n q fun x => c * ψ x) = _
    rw [applyHtilde_smul, ih]
    rfl

lemma applyToEach_htilde_sub (n : ℕ) (l : List (Fin n)) (ψ χ : QState n) :
    applyToEach n (applyHtilde n) l (fun x => ψ x - χ x)
      = fun x => applyToEach n (applyHtilde n) l ψ x - applyToEach n (applyHtilde n) l χ x := by
  induction l generalizing ψ χ with
  | nil => rfl
  | cons q t ih =>
    show applyToEach n (applyHtilde n) t (applyHtilde n q fun x => ψ x - χ x) = _
    rw [applyHtilde_sub, ih]
    rfl

lemma applyToEach_append (n : ℕ) (g : Fin n → QState n → QState n)
    (u v : List (Fin n)) (ψ : QState n) :
    applyToEach n g (u ++ v) ψ = applyToEach n g v (applyToEach n g u ψ) := by
  induction u generalizing ψ with
  | nil => rfl
  | cons q t ih =>
    show applyToEach n g (t ++ v) (g q ψ) = _
    rw [ih]
    rfl

lemma applyToEach_htilde_reverse_cancel (n : ℕ) (l : List (Fin n)) (ψ : QState n) :
    applyToEach n (applyHtilde n) l.reverse (applyToEach n (applyHtilde n) l ψ)
      = fun x => 2 ^ l.length * ψ x := by
  induction l generalizing ψ with
  | nil => funext x; simp [applyToEach]
  | cons q t ih =>
    show applyToEach n (applyHtilde n) (q :: t).reverse
        (applyToEach n (applyHtilde n) t (applyHtilde n q ψ)) = _
    rw [List.reverse_cons, applyToEach_append, ih (applyHtilde n q ψ)]
    show applyHtilde n q (fun x => 2 ^ t.length * applyHtilde n q ψ x) = _
    rw [applyHtilde_smul, applyHtilde_applyHtilde]
    funext x
    show (2 : ℚ) ^ t.length * (2 * ψ x) = 2 ^ (t.length + 1) * ψ x
    ring

lemma applyToEach_X_eval (n : ℕ) (l : List (Fin n)) (hl : l.Nodup) (ψ : QState n)
    (x : Basis n) :
    applyToEach n (applyX n) l ψ x = ψ (fun j => Bool.xor (x j) (decide (j ∈ l))) := by
  induction l generalizing ψ x with
  | nil =>
    show ψ x = _
    congr 1
    funext j
    simp
  | cons q t ih =>
    show applyToEach n (applyX n) t (applyX n q ψ) x = _
    rw [ih (List.Nodup.of_cons hl) (applyX n q ψ) x]
    show ψ (Function.update _ q _) = _
    congr 1
    funext j
    by_cases hj : j = q
    · subst hj
      rw [Function.update_same]
      have hjt : j ∉ t := (List.nodup_cons.mp hl).1
      simp [hjt]
    · rw [Function.update_noteq hj]
      simp [hj]

lemma diffusionCZ_cond (n : ℕ) (hn : 1 ≤ n) (x : Basis n) :
    (((List.range (n - 1)).all fun c => bitAt n x c) && bitAt n x (n - 1)) = true
      ↔ ∀ j : Fin n, x j = true := by
  rw [Bool.and_eq_true, List.all_eq_true]
  constructor
  · rintro ⟨hall, htgt⟩ j
    by_cases hj : (j : ℕ) < n - 1
    · have := hall (j : ℕ) (List.mem_range.mpr hj)
      rwa [bitAt, dif_pos j.isLt, Fin.eta] at this
    · have hje : (j : ℕ) = n - 1 := by have := j.isLt; omega
      rw [bitAt, dif_pos (by omega : n - 1 < n)] at htgt
      have hjj : j = (⟨n - 1, by omega⟩ : Fin n) := Fin.ext hje
      rw [hjj]
      exact htgt
  · intro h
    refine ⟨fun c hc => ?_, ?_⟩
    · rw [bitAt, dif_pos (by have := List.mem_range.mp hc; omega : c < n)]
      exact h _
    · rw [bitAt, dif_pos (by omega : n - 1 < n)]
      exact h _

lemma qubitList_nodup (n : ℕ) : (qubitList n).Nodup := List.nodup_finRange n

lemma mem_qubitList (n : ℕ) (j : Fin n) : j ∈ qubitList n := List.mem_finRange j

lemma middle_eval (n : ℕ) (hn : 1 ≤ n) (ψ : QState n) (x : Basis n) :
    applyToEach n (applyX n) (qubitList n).reverse
        (applyControlledZ n (List.range (n - 1)) (n - 1)
          (applyToEach n (applyX n) (qubitList n) ψ)) x
      = (if x = (fun _ => false) then -1 else 1) * ψ x := by
  rw [applyToEach_X_eval n ((qubitList n).reverse)
    (List.nodup_reverse.mpr (qubitList_nodup n))]
  have hmem : ∀ j : Fin n, (decide (j ∈ (qubitList n).reverse)) = true := by
    intro j
    simp [List.mem_reverse, mem_qubitList]
  have hflip : (fun j => Bool.xor (x j) (decide (j ∈ (qubitList n).reverse)))
      = fun j => !(x j) := by
    funext j
    rw [hmem j, Bool.xor_true]
  rw [hflip]
  show (if _ then (-1 : ℚ) else 1) * applyToEach n (applyX n) (qubitList n) ψ _ = _
  rw [applyToEach_X_eval n (qubitList n) (qubitList_nodup n)]
  have hmem2 : ∀ j : Fin n, (decide (j ∈ qubitList n)) = true := by
    intro j
    simp [mem_qubitList]
  have hback : (fun j => Bool.xor (!(x j)) (decide (j ∈ qubitList n))) = x := by
    funext j
    rw [hmem2 j, Bool.xor_true, Bool.not_not]
  rw [hback]
  congr 1
  by_cases hx : x = (fun _ => false)
  · rw [if_pos hx, if_pos]
    rw [(diffusionCZ_cond n hn _)]
    intro j
    rw [hx]
    simp
  · rw [if_neg hx, if_neg]
    intro hc
    apply hx
    have hall := (diffusionCZ_cond n hn _).mp hc
    funext j
    have := hall j
    simpa using this

lemma applyToEach_htilde_sum (n : ℕ) :
    ∀ (l : List (Fin n)), l.Nodup → ∀ (ψ : QState n) (x : Basis n),
      (∀ q ∈ l, x q = false) →
      applyToEach n (applyHtilde n) l ψ x
        = ∑ y ∈ Finset.univ.filter (fun y : Basis n => ∀ q : Fin n, q ∉ l → y q = x q),
            ψ y := by
  intro l
  induction l with
  | nil =>
    intro _ ψ x _
    show ψ x = _
    have hfilter : Finset.univ.filter
        (fun y : Basis n => ∀ q : Fin n, q ∉ ([] : List (Fin n)) → y q = x q) = {x} := by
      ext y
      simp only [Finset.mem_filter, Finset.mem_univ, true_and, Finset.mem_singleton]
      constructor
      · intro h
        funext q
        exact h q (by simp)
      · intro h q _
        rw [h]
    rw [hfilter, Finset.sum_singleton]
  | cons a t ih =>
    intro hl ψ x hx
    have hat : a ∉ t := (List.nodup_cons.mp hl).1
    have ht : t.Nodup := (List.nodup_cons.mp hl).2
    have hxt : ∀ q ∈ t, x q = false := fun q hq => hx q (List.mem_cons_of_mem a hq)
    have hxa : x a = false := hx a (List.mem_cons_self a t)
    show applyToEach n (applyHtilde n) t (applyHtilde n a ψ) x = _
    rw [ih ht (applyHtilde n a ψ) x hxt]
    have hterm : ∀ y ∈ Finset.univ.filter
        (fun y : Basis n => ∀ q : Fin n, q ∉ t → y q = x q),
        applyHtilde n a ψ y = ψ y + ψ (Function.update y a true) := by
      intro y hy
      simp only [Finset.mem_filter, Finset.mem_univ, true_and] at hy
      have hya : y a = false := by rw [hy a hat, hxa]
      simp only [applyHtilde]
      rw [hya]
      have hupd : Function.update y a false = y := by
        rw [show false = y a from hya.symm]
        exact Function.update_eq_self a y
      rw [hupd]
      simp
    rw [Finset.sum_congr rfl hterm, Finset.sum_add_distrib]
    have hsplit := Finset.sum_filter_add_sum_filter_not
      (Finset.univ.filter (fun y : Basis n => ∀ q : Fin n, q ∉ a :: t → y q = x q))
      (fun y => y a = false) ψ
    rw [← hsplit]
    congr 1
    · apply Finset.sum_congr
      · ext y
        simp only [Finset.filter_filter, Finset.mem_filter, Finset.mem_univ, true_and]
        constructor
        · intro h
          refine ⟨fun q hq => h q (fun hqt => hq (List.mem_cons_of_mem a hqt)), ?_⟩
          rw [h a hat, hxa]
        · rintro ⟨h1, h2⟩ q hq
          by_cases hqa : q = a
          · subst hqa
            rw [h2, hxa]
          · exact h1 q (by simp [List.mem_cons, hqa, hq])
      · intro _ _
        rfl
    · refine Finset.sum_nbij' (fun y => Function.update y a true)
        (fun y => Function.update y a false) ?_ ?_ ?_ ?_ ?_
      · intro y hy
        simp only [Finset.mem_filter, Finset.mem_univ, true_and] at hy ⊢
        refine ⟨fun q hq => ?_, ?_⟩
        · have hqa : q ≠ a := fun he => hq (he ▸ List.mem_cons_self a t)
          rw [Function.update_noteq hqa]
          exact hy q (fun hqt => hq (List.mem_cons_of_mem a hqt))
        · rw [Function.update_same]
          simp
      · intro z hz
        simp only [Finset.mem_filter, Finset.mem_univ, true_and] at hz ⊢
        intro q hq
        by_cases hqa : q = a
        · subst hqa
          rw [Function.update_same, hxa]
        · rw [Function.update_noteq hqa]
          exact hz.1 q (by simp [List.mem_cons, hqa, hq])
      · intro y hy
        simp only [Finset.mem_filter, Finset.mem_univ, true_and] at hy
        have hya : y a = false := by rw [hy a hat, hxa]
        show Function.update (Function.update y a true) a false = y
        rw [Function.update_idem, show false = y a from hya.symm]
        exact Function.update_eq_self a y
      · intro z hz
        simp only [Finset.mem_filter, Finset.mem_univ, true_and] at hz
        have hza : z a = true := by
          cases hzb : z a with
          | false => exact absurd hzb hz.2
          | true => rfl
        show Function.update (Function.update z a false) a true = z
        rw [Function.update_idem, show true = z a from hza.symm]
        exact Function.update_eq_self a z
      · intro y _
        rfl

lemma hall_sum_zeros (n : ℕ) (l : List (Fin n)) (hl : l.Nodup)
    (hcov : ∀ j : Fin n, j ∈ l) (ψ : QState n) :
    applyToEach n (applyHtilde n) l ψ (fun _ => false) = ∑ y : Basis n, ψ y := by
  rw [applyToEach_htilde_sum n l hl ψ (fun _ => false) (fun q _ => rfl)]
  congr 1
  ext y
  simp only [Finset.mem_filter, Finset.mem_univ, true_and, iff_true]
  intro q hq
  exact absurd (hcov q) hq

/-- The amplitude function that is 1 exactly on the basis states reading 0
outside `S`: `offIndicator ∅` is the freshly allocated register state and
`offIndicator univ` is the all-ones function, and the Hadamard layer turns
the former into the latter one qubit at a time. -/
def offIndicator (n : ℕ) (S : Finset (Fin n)) : QState n :=
  fun y => if ∀ q : Fin n, q ∉ S → y q = false then 1 else 0

lemma applyHtilde_offIndicator (n : ℕ) (q : Fin n) (S : Finset (Fin n)) (hq : q ∉ S) :
    applyHtilde n q (offIndicator n S) = offIndicator n (insert q S) := by
  funext x
  simp only [applyHtilde, offIndicator]
  have h2 : (if ∀ p : Fin n, p ∉ S → Function.update x q true p = false
      then (1 : ℚ) else 0) = 0 := by
    rw [if_neg]
    intro hall
    have := hall q hq
    rw [Function.update_same] at this
    exact Bool.noConfusion this
  rw [h2]
  have hiff : (∀ p : Fin n, p ∉ S → Function.update x q false p = false)
      ↔ (∀ p : Fin n, p ∉ insert q S → x p = false) := by
    constructor
    · intro h p hp
      have hpq : p ≠ q := fun he => hp (he ▸ Finset.mem_insert_self q S)
      have := h p (fun hpS => hp (Finset.mem_insert_of_mem hpS))
      rwa [Function.update_noteq hpq] at this
    · intro h p hpS
      by_cases hpq : p = q
      · subst hpq
        rw [Function.update_same]
      · rw [Function.update_noteq hpq]
        exact h p (by simp [Finset.mem_insert, hpq, hpS])
  by_cases hc : ∀ p : Fin n, p ∉ insert q S → x p = false
  · rw [if_pos (hiff.mpr hc), if_pos hc]
    ring
  · rw [if_neg (fun h => hc (hiff.mp h)), if_neg hc]
    ring

lemma applyToEach_htilde_offIndicator (n : ℕ) :
    ∀ (l : List (Fin n)), l.Nodup → ∀ S : Finset (Fin n), (∀ q ∈ l, q ∉ S) →
      applyToEach n (applyHtilde n) l (offIndicator n S)
        = offIndicator n (S ∪ l.toFinset) := by
  intro l
  induction l with
  | nil =>
    intro _ S _
    show offIndicator n S = _
    rw [List.toFinset_nil, Finset.union_empty]
  | cons a t ih =>
    intro hl S hS
    have hat : a ∉ S := hS a (List.mem_cons_self a t)
    have hts : ∀ q ∈ t, q ∉ insert a S := by
      intro q hqt
      rw [Finset.mem_insert]
      push_neg
      exact ⟨fun he => (List.nodup_cons.mp hl).1 (he ▸ hqt),
        hS q (List.mem_cons_of_mem a hqt)⟩
    show applyToEach n (applyHtilde n) t (applyHtilde n a (offIndicator n S)) = _
    rw [applyHtilde_offIndicator n a S hat, ih (List.Nodup.of_cons hl) (insert a S) hts]
    have hset : insert a S ∪ t.toFinset = S ∪ (a :: t).toFinset := by
      rw [List.toFinset_cons]
      ext j
      simp only [Finset.mem_union, Finset.mem_insert]
      tauto
    rw [hset]

lemma initState_eq_offIndicator (n : ℕ) : initState n = offIndicator n ∅ := by
  funext x
  simp only [initState, offIndicator]
  by_cases h : x = (fun _ => false)
  · rw [if_pos h, if_pos (fun q _ => by rw [h])]
  · rw [if_neg h, if_neg (fun hall => h (funext fun q => hall q (Finset.not_mem_empty q)))]

lemma offIndicator_univ (n : ℕ) :
    offIndicator n Finset.univ = fun _ => (1 : ℚ) := by
  funext x
  rw [offIndicator, if_pos (fun q hq => absurd (Finset.mem_univ q) hq)]

lemma hall_init (n : ℕ) (l : List (Fin n)) (hl : l.Nodup) (hcov : ∀ j : Fin n, j ∈ l) :
    applyToEach n (applyHtilde n) l (initState n) = fun _ => (1 : ℚ) := by
  rw [initState_eq_offIndicator,
    applyToEach_htilde_offIndicator n l hl ∅ (fun q _ => Finset.not_mem_empty q)]
  have hu : ((∅ : Finset (Fin n)) ∪ l.toFinset) = Finset.univ := by
    ext j
    simp [List.mem_toFinset, hcov]
  rw [hu, offIndicator_univ]

lemma middle_funext (n : ℕ) (hn : 1 ≤ n) (χ : QState n) :
    applyToEach n (applyX n) (qubitList n).reverse
        (applyControlledZ n (List.range (n - 1)) (n - 1)
          (applyToEach n (applyX n) (qubitList n) χ))
      = fun x => χ x - 2 * χ (fun _ => false) * initState n x := by
  funext x
  rw [middle_eval n hn χ x]
  simp only [initState]
  by_cases h : x = (fun _ => false)
  · rw [if_pos h, if_pos h, h]
    ring
  · rw [if_neg h, if_neg h]
    ring

lemma Diffusion_eval (n : ℕ) (hn : 1 ≤ n) (ψ : QState n) :
    Diffusion n ψ = fun x => 2 ^ n * ψ x - 2 * ∑ y : Basis n, ψ y := by
  unfold Diffusion
  rw [middle_funext n hn (applyToEach n (applyHtilde n) (qubitList n) ψ)]
  rw [applyToEach_htilde_sub n ((qubitList n).reverse)
    (applyToEach n (applyHtilde n) (qubitList n) ψ)
    (fun x => 2 * applyToEach n (applyHtilde n) (qubitList n) ψ (fun _ => false)
      * initState n x)]
  funext x
  rw [applyToEach_htilde_reverse_cancel n (qubitList n) ψ]
  have hsmul := applyToEach_htilde_smul n ((qubitList n).reverse)
    (2 * applyToEach n (applyHtilde n) (qubitList n) ψ (fun _ => false)) (initState n)
  rw [show (fun x => 2 * applyToEach n (applyHtilde n) (qubitList n) ψ (fun _ => false)
      * initState n x)
    = (fun x => (2 * applyToEach n (applyHtilde n) (qubitList n) ψ (fun _ => false))
      * initState n x) from rfl, hsmul]
  rw [hall_init n ((qubitList n).reverse) (List.nodup_reverse.mpr (qubitList_nodup n))
    (fun j => List.mem_reverse.mpr (mem_qubitList n j))]
  rw [hall_sum_zeros n (qubitList n) (qubitList_nodup n) (mem_qubitList n) ψ]
  have hlen : (qubitList n).length = n := List.length_finRange n
  rw [hlen]
  ring

/-! ### Two-valued states through the Grover iteration -/

/-- A state that reads `a` on the alternating strings and `b` elsewhere. -/
def stateOf (n : ℕ) (a b : ℚ) : QState n :=
  fun x => if alternating n x then a else b

lemma stateOf_congr (n : ℕ) (a b a' b' : ℚ) (ha : a = a') (hb : b = b') :
    stateOf n a b = stateOf n a' b' := by rw [ha, hb]

lemma card_basis (n : ℕ) : (Finset.univ : Finset (Basis n)).card = 2 ^ n := by
  rw [Finset.card_univ]
  rw [show Fintype.card (Basis n) = 2 ^ n by
    rw [Fintype.card_fun, Fintype.card_bool, Fintype.card_fin]]

lemma two_le_two_pow (n : ℕ) (hn : 1 ≤ n) : (2 : ℕ) ≤ 2 ^ n := by
  calc (2 : ℕ) = 2 ^ 1 := rfl
  _ ≤ 2 ^ n := Nat.pow_le_pow_right (by norm_num) hn

lemma sum_ite_alternating (n : ℕ) (hn : 1 ≤ n) (u v : ℚ) :
    ∑ x : Basis n, (if alternating n x then u else v) = 2 * u + (2 ^ n - 2) * v := by
  have hsplit := Finset.sum_filter_add_sum_filter_not
    (Finset.univ : Finset (Basis n)) (fun x => alternating n x)
    (fun x => if alternating n x then u else v)
  rw [← hsplit]
  have h1 : ∑ x ∈ Finset.univ.filter (fun x : Basis n => alternating n x),
      (if alternating n x then u else v) = 2 * u := by
    rw [Finset.sum_congr rfl (fun x hx => if_pos (Finset.mem_filter.mp hx).2),
      Finset.sum_const, alternating_card n hn, nsmul_eq_mul]
    norm_num
  have h2 : ∑ x ∈ Finset.univ.filter (fun x : Basis n => ¬alternating n x),
      (if alternating n x then u else v) = (2 ^ n - 2) * v := by
    rw [Finset.sum_congr rfl (fun x hx => if_neg (Finset.mem_filter.mp hx).2),
      Finset.sum_const]
    have htot := Finset.filter_card_add_filter_neg_card_eq_card
      (s := (Finset.univ : Finset (Basis n))) (p := fun x => alternating n x)
    rw [card_basis, alternating_card n hn] at htot
    have hcard : (Finset.univ.filter (fun x : Basis n => ¬alternating n x)).card
        = 2 ^ n - 2 := by omega
    rw [hcard, nsmul_eq_mul, Nat.cast_sub (two_le_two_pow n hn)]
    push_cast
    ring
  rw [h1, h2]

lemma oracle_stateOf (n : ℕ) (hn : 2 ≤ n) (a b : ℚ) :
    AlternatingBitStringOracle n (stateOf n a b) = stateOf n (-a) b := by
  funext x
  rw [oracle_diag n hn (stateOf n a b) x]
  simp only [stateOf]
  by_cases h : alternating n x
  · rw [if_pos h, if_pos h, if_pos h]
    ring
  · rw [if_neg h, if_neg h, if_neg h]
    ring

lemma sum_stateOf (n : ℕ) (hn : 1 ≤ n) (a b : ℚ) :
    ∑ y : Basis n, stateOf n a b y = 2 * a + (2 ^ n - 2) * b := by
  simp only [stateOf]
  exact sum_ite_alternating n hn a b

lemma diffusion_stateOf (n : ℕ) (hn : 1 ≤ n) (a b : ℚ) :
    Diffusion n (stateOf n a b)
      = stateOf n (2 ^ n * a - 2 * (2 * a + (2 ^ n - 2) * b))
          (2 ^ n * b - 2 * (2 * a + (2 ^ n - 2) * b)) := by
  rw [Diffusion_eval n hn, sum_stateOf n hn]
  funext x
  simp only [stateOf]
  by_cases h : alternating n x
  · rw [if_pos h, if_pos h]
  · rw [if_neg h, if_neg h]

lemma markedSum_stateOf (n : ℕ) (hn : 1 ≤ n) (a b : ℚ) :
    markedSum n (stateOf n a b) = 2 * a ^ 2 := by
  unfold markedSum
  rw [Finset.sum_congr rfl (fun x hx => by
    rw [show stateOf n a b x = a from if_pos (Finset.mem_filter.mp hx).2])]
  rw [Finset.sum_const, alternating_card n hn, nsmul_eq_mul]
  norm_num

lemma totalSum_stateOf (n : ℕ) (hn : 1 ≤ n) (a b : ℚ) :
    totalSum n (stateOf n a b) = 2 * a ^ 2 + (2 ^ n - 2) * b ^ 2 := by
  unfold totalSum
  have hcongr : ∀ x : Basis n, stateOf n a b x ^ 2
      = if alternating n x then a ^ 2 else b ^ 2 := by
    intro x
    simp only [stateOf]
    by_cases h : alternating n x
    · rw [if_pos h, if_pos h]
    · rw [if_neg h, if_neg h]
  rw [Finset.sum_congr rfl (fun x _ => hcongr x)]
  exact sum_ite_alternating n hn (a ^ 2) (b ^ 2)

lemma markedProb_stateOf (n : ℕ) (hn : 1 ≤ n) (a b : ℚ) :
    markedProb n (stateOf n a b)
      = 2 * a ^ 2 / (2 * a ^ 2 + (2 ^ n - 2) * b ^ 2) := by
  unfold markedProb
  rw [markedSum_stateOf n hn, totalSum_stateOf n hn]

lemma GroversState_zero (n : ℕ) : GroversState 0 n = stateOf n 1 1 := by
  unfold GroversState
  rw [show List.range' 1 0 = [] from rfl]
  show applyToEach n (applyHtilde n) (qubitList n) (initState n) = _
  rw [hall_init n (qubitList n) (qubitList_nodup n) (mem_qubitList n)]
  funext x
  simp only [stateOf]
  by_cases h : alternating n x
  · rw [if_pos h]
  · rw [if_neg h]

lemma GroversState_succ (it n : ℕ) :
    GroversState (it + 1) n
      = Diffusion n (AlternatingBitStringOracle n (GroversState it n)) := by
  unfold GroversState
  rw [List.range'_1_concat, List.foldl_append]
  rfl

lemma GroversState_iterate (it n : ℕ) :
    GroversState it n
      = (fun ψ => Diffusion n (AlternatingBitStringOracle n ψ))^[it]
          (applyToEach n (applyHtilde n) (qubitList n) (initState n)) := by
  induction it with
  | zero => rfl
  | succ it ih =>
    rw [GroversState_succ, ih, Function.iterate_succ_apply']

lemma GroversState_one (n : ℕ) (hn : 2 ≤ n) :
    GroversState 1 n = stateOf n (8 - 3 * 2 ^ n) (8 - 2 ^ n) := by
  rw [GroversState_succ 0 n, GroversState_zero, oracle_stateOf n hn 1 1,
    diffusion_stateOf n (by omega) (-1) 1]
  exact stateOf_congr n _ _ _ _ (by ring) (by ring)

lemma markedProb_uniform (n : ℕ) (hn : 1 ≤ n) :
    markedProb n (GroversState 0 n) = 2 / 2 ^ n := by
  rw [GroversState_zero, markedProb_stateOf n hn]
  norm_num

lemma markedProb_first_iteration_incr (n : ℕ) (hn : 3 ≤ n) :
    markedProb n (GroversState 0 n) < markedProb n (GroversState 1 n) := by
  rw [GroversState_zero, GroversState_one n (by omega),
    markedProb_stateOf n (by omega), markedProb_stateOf n (by omega)]
  have ht : (8 : ℚ) ≤ 2 ^ n := by
    calc (8 : ℚ) = 2 ^ 3 := by norm_num
    _ ≤ 2 ^ n := pow_le_pow_right₀ (by norm_num) hn
  have h0 : (0 : ℚ) < 2 ^ n := by positivity
  have hden1 : 2 * (1 : ℚ) ^ 2 + (2 ^ n - 2) * 1 ^ 2 = 2 ^ n := by ring
  have hden2 : 2 * (8 - 3 * 2 ^ n : ℚ) ^ 2 + (2 ^ n - 2) * (8 - 2 ^ n) ^ 2
      = 2 ^ n * (2 ^ n * 2 ^ n) := by ring
  rw [hden1, hden2]
  rw [div_lt_div_iff₀ h0 (by nlinarith)]
  nlinarith [mul_pos (mul_pos h0 (show (0 : ℚ) < 2 * 2 ^ n - 8 by nlinarith))
    (show (0 : ℚ) < 4 * 2 ^ n - 8 by nlinarith)]

lemma GroversState_one_two : GroversState 1 2 = stateOf 2 (-4) 4 := by
  rw [GroversState_one 2 (by norm_num)]
  exact stateOf_congr 2 _ _ _ _ (by norm_num) (by norm_num)

lemma markedProb_unchanged_n2 :
    markedProb 2 (GroversState 1 2) = markedProb 2 (GroversState 0 2) := by
  rw [GroversState_one_two, GroversState_zero, markedProb_stateOf 2 (by norm_num),
    markedProb_stateOf 2 (by norm_num)]
  norm_num

lemma GroversState_two_three : GroversState 2 3 = stateOf 3 64 (-64) := by
  rw [GroversState_succ 1 3, GroversState_one 3 (by norm_num)]
  rw [show ((8 : ℚ) - 3 * 2 ^ 3) = -16 by norm_num,
    show ((8 : ℚ) - 2 ^ 3) = 0 by norm_num]
  rw [oracle_stateOf 3 (by norm_num) (-16) 0]
  rw [show (-(-16 : ℚ)) = 16 by norm_num]
  rw [diffusion_stateOf 3 (by norm_num) 16 0]
  exact stateOf_congr 3 _ _ _ _ (by norm_num) (by norm_num)

lemma markedProb_decreases_n3 :
    markedProb 3 (GroversState 2 3) < markedProb 3 (GroversState 1 3) := by
  rw [GroversState_two_three, GroversState_one 3 (by norm_num),
    markedProb_stateOf 3 (by norm_num), markedProb_stateOf 3 (by norm_num)]
  norm_num

/-! ### Both circuits are involutions -/

lemma oracle_involutive (n : ℕ) (ψ : QState n) :
    AlternatingBitStringOracle n (AlternatingBitStringOracle n ψ) = ψ := by
  funext x
  rw [oracle_eval, oracle_eval]
  unfold oracleSign
  split_ifs with h
  · ring
  · ring

lemma diffusion_involutive (n : ℕ) (hn : 1 ≤ n) (ψ : QState n) :
    Diffusion n (Diffusion n ψ) = fun x => (4 : ℚ) ^ n * ψ x := by
  rw [Diffusion_eval n hn ψ, Diffusion_eval n hn _]
  have hsum : ∑ y : Basis n, (2 ^ n * ψ y - 2 * ∑ z : Basis n, ψ z)
      = 2 ^ n * (∑ y : Basis n, ψ y) - 2 ^ n * (2 * ∑ z : Basis n, ψ z) := by
    rw [Finset.sum_sub_distrib, ← Finset.mul_sum, Finset.sum_const, card_basis,
      nsmul_eq_mul]
    push_cast
    ring
  funext x
  rw [hsum]
  have h4 : (4 : ℚ) ^ n = 2 ^ n * 2 ^ n := by
    rw [← mul_pow]
    norm_num
  rw [h4]
  ring

/-! ### The shape of the top-level operation -/

lemma qubitList_length (n : ℕ) : (qubitList n).length = n := List.length_finRange n

lemma GroversOutcomes_length (it n : ℕ) :
    ∀ r ∈ GroversOutcomes it n, r.length = n := by
  intro r hr
  rw [GroversOutcomes, Finset.mem_image] at hr
  obtain ⟨x, _, rfl⟩ := hr
  exact List.length_ofFn x

/-! ### Bounds-checked semantics of the two operations, as the Q# runtime
would run them on registers of any length -/

/-- A Q# `Int` used as an array index of `qs : Qubit[n]`: the access
succeeds exactly when `0 ≤ i < n`. -/
def idx? (n : ℕ) (i : ℤ) : Option (Fin n) :=
  if h : 0 ≤ i ∧ i < (n : ℤ) then some ⟨i.toNat, by omega⟩ else none

/-- A Q# slice `qs[0 .. b]` (step 1): empty when `b < 0`, listing positions
`0 … b` while `b < n`; an upper bound of `n` or more is out of range. -/
def slice? (n : ℕ) (b : ℤ) : Option (List ℕ) :=
  if b < (n : ℤ) then some (List.range (b + 1).toNat) else none

/-- The accesses `qs[i]` and `qs[i - 1]` made by one pass of the oracle's
within loop, for every listed value of `i`. -/
def checkLoop (n : ℕ) : List ℕ → Option Unit
  | [] => some ()
  | i :: rest => do
    let _ ← idx? n (i : ℤ)
    let _ ← idx? n ((i : ℤ) - 1)
    checkLoop n rest

/-- `AlternatingBitStringOracle` with the Q# runtime's bounds checking:
`none` when one of its array accesses is out of range.  The within loop
accesses `qs[i]` and `qs[i - 1]` for `i` in `1 .. Length(qs) - 1`, and the
apply block the slice `qs[0 .. Length(qs) - 3]` and the index
`qs[Length(qs) - 2]`. -/
def oracleChecked (n : ℕ) : Option (QState n → QState n) := do
  let _ ← checkLoop n (List.range' 1 (n - 1))
  let _ ← slice? n ((n : ℤ) - 3)
  let _ ← idx? n ((n : ℤ) - 2)
  pure (AlternatingBitStringOracle n)

/-- `Diffusion` with the Q# runtime's bounds checking: the two
`ApplyToEachA` layers touch only genuine positions, `Most(qs)` is the slice
`qs[0 .. Length(qs) - 2]` and `Tail(qs)` the access `qs[Length(qs) - 1]`. -/
def diffusionChecked (n : ℕ) : Option (QState n → QState n) := do
  let _ ← slice? n ((n : ℤ) - 2)
  let _ ← idx? n ((n : ℤ) - 1)
  pure (Diffusion n)

lemma idx?_eq_some (n : ℕ) (i : ℤ) (h : 0 ≤ i ∧ i < (n : ℤ)) :
    idx? n i = some ⟨i.toNat, by omega⟩ := dif_pos h

lemma idx?_eq_none (n : ℕ) (i : ℤ) (h : ¬(0 ≤ i ∧ i < (n : ℤ))) :
    idx? n i = none := dif_neg h

lemma slice?_eq_some (n : ℕ) (b : ℤ) (h : b < (n : ℤ)) :
    slice? n b = some (List.range (b + 1).toNat) := if_pos h

lemma checkLoop_eq_some (n : ℕ) (l : List ℕ) (hl : ∀ i ∈ l, 1 ≤ i ∧ i < n) :
    checkLoop n l = some () := by
  induction l with
  | nil => rfl
  | cons a t ih =>
    have ha := hl a (List.mem_cons_self a t)
    rw [checkLoop, idx?_eq_some n (a : ℤ) (by omega),
      idx?_eq_some n ((a : ℤ) - 1) (by omega)]
    exact ih (fun i hi => hl i (List.mem_cons_of_mem a hi))

lemma oracleChecked_of_ge_two (n : ℕ) (hn : 2 ≤ n) :
    oracleChecked n = some (AlternatingBitStringOracle n) := by
  rw [oracleChecked, checkLoop_eq_some n (List.range' 1 (n - 1)) (by
    intro i hi
    have := List.mem_range'_1.mp hi
    omega), slice?_eq_some n ((n : ℤ) - 3) (by omega),
    idx?_eq_some n ((n : ℤ) - 2) (by omega)]
  rfl

lemma oracleChecked_none_iff (n : ℕ) : oracleChecked n = none ↔ n < 2 := by
  constructor
  · intro h
    by_contra hn
    rw [oracleChecked_of_ge_two n (by omega)] at h
    exact Option.some_ne_none _ h
  · intro hn
    interval_cases n
    · rfl
    · rfl

lemma diffusionChecked_of_ge_one (n : ℕ) (hn : 1 ≤ n) :
    diffusionChecked n = some (Diffusion n) := by
  rw [diffusionChecked, slice?_eq_some n ((n : ℤ) - 2) (by omega),
    idx?_eq_some n ((n : ℤ) - 1) (by omega)]
  rfl

lemma diffusionChecked_none_iff (n : ℕ) : diffusionChecked n = none ↔ n = 0 := by
  constructor
  · intro h
    by_contra hn
    rw [diffusionChecked_of_ge_one n (by omega)] at h
    exact Option.some_ne_none _ h
  · intro hn
    subst hn
    rfl

/-! ### The Python plotting helper, up to the point where plotting starts -/

/-- A Python string, as its sequence of characters. -/
abbrev PyStr := List Char

/-- The two exceptions `plot_job_results` can raise before any bar is
drawn. -/
inductive PyError : Type
  | indexError : PyError
  | valueError : PyError
deriving DecidableEq

/-- `key.replace(",", "")`: the key with every comma dropped. -/
def replaceComma (s : PyStr) : PyStr := s.filter (fun c => c != ',')

/-- `keys = [key.replace(",", "") for key in list(output.keys())]`, with the
job output dictionary modelled as the association list of its entries. -/
def processedKeys (output : List (PyStr × ℕ)) : List PyStr :=
  (output.map fun kv => kv.1).map replaceComma

/-- The loop building `firstBitString` from the digits `str((i + 1) % 2)`,
plus the surrounding brackets: the string `"[1010…]"` of the given
length (an empty body when the inferred length is negative, as in Python). -/
def firstBitString (keyLen : ℤ) : PyStr :=
  '[' :: ((List.range keyLen.toNat).map fun i => if (i + 1) % 2 = 1 then '1' else '0') ++ [']']

/-- The loop building `secondBitString` from the digits `str(i % 2)`, plus
the surrounding brackets: the string `"[0101…]"` of the given length. -/
def secondBitString (keyLen : ℤ) : PyStr :=
  '[' :: ((List.range keyLen.toNat).map fun i => if i % 2 = 1 then '1' else '0') ++ [']']

/-- Python’s `keys.index(s)`: the first position of `s` in the list, or a
ValueError when `s` does not occur. -/
def pyIndex (l : List PyStr) (s : PyStr) : Except PyError ℕ :=
  if s ∈ l then .ok (l.indexOf s) else .error .valueError

/-- `keyLen = len(keys[0]) - 2`, read off the first processed key. -/
def inferredKeyLen (output : List (PyStr × ℕ)) : ℤ :=
  (((processedKeys output).headD []).length : ℤ) - 2

/-- `plot_job_results` up to the point where the plotting calls begin: the
job output comes in and either an exception propagates (`keys[0]` raises
IndexError when the dictionary is empty, `keys.index` raises ValueError
when a target bit string is missing) or the pair
`(firstBitStringLoc, secondBitStringLoc)` — forced into order by the
`min`/`max` assignments — reaches the `plt.bar` calls. -/
def plot_job_results (output : List (PyStr × ℕ)) : Except PyError (ℕ × ℕ) :=
  match output with
  | [] => .error .indexError
  | kv :: rest =>
    let keys := processedKeys (kv :: rest)
    let keyLen : ℤ := ((replaceComma kv.1).length : ℤ) - 2
    match pyIndex keys (firstBitString keyLen), pyIndex keys (secondBitString keyLen) with
    | .ok i, .ok j => .ok (min i j, max i j)
    | .error e, _ => .error e
    | _, .error e => .error e

lemma inferredKeyLen_cons (kv : PyStr × ℕ) (rest : List (PyStr × ℕ)) :
    inferredKeyLen (kv :: rest) = ((replaceComma kv.1).length : ℤ) - 2 := rfl

lemma plot_indexError_iff (output : List (PyStr × ℕ)) :
    plot_job_results output = .error .indexError ↔ output = [] := by
  cases output with
  | nil => simp [plot_job_results]
  | cons kv rest =>
    simp only [plot_job_results]
    constructor
    · intro h
      by_cases h1 : firstBitString (((replaceComma kv.1).length : ℤ) - 2)
          ∈ processedKeys (kv :: rest)
      · by_cases h2 : secondBitString (((replaceComma kv.1).length : ℤ) - 2)
            ∈ processedKeys (kv :: rest)
        · rw [pyIndex, if_pos h1, pyIndex, if_pos h2] at h
          exact absurd h (by simp)
        · rw [pyIndex, if_pos h1, pyIndex, if_neg h2] at h
          simp at h
      · rw [pyIndex, if_neg h1] at h
        simp at h
    · intro h
      exact absurd h (by simp)

lemma plot_valueError_iff (output : List (PyStr × ℕ)) :
    plot_job_results output = .error .valueError
      ↔ output ≠ [] ∧ (firstBitString (inferredKeyLen output) ∉ processedKeys output
          ∨ secondBitString (inferredKeyLen output) ∉ processedKeys output) := by
  cases output with
  | nil =>
    simp [plot_job_results]
  | cons kv rest =>
    rw [inferredKeyLen_cons]
    simp only [plot_job_results, ne_eq, reduceCtorEq, not_false_iff, true_and]
    by_cases h1 : firstBitString (((replaceComma kv.1).length : ℤ) - 2)
        ∈ processedKeys (kv :: rest)
    · by_cases h2 : secondBitString (((replaceComma kv.1).length : ℤ) - 2)
          ∈ processedKeys (kv :: rest)
      · rw [pyIndex, if_pos h1, pyIndex, if_pos h2]
        simp [h1, h2]
      · rw [pyIndex, if_pos h1, pyIndex, if_neg h2]
        simp [h2]
    · rw [pyIndex, if_neg h1]
      simp [h1]

lemma plot_ok_sorted (output : List (PyStr × ℕ)) (i j : ℕ)
    (h : plot_job_results output = .ok (i, j)) : i ≤ j := by
  cases output with
  | nil => exact absurd h (by simp [plot_job_results])
  | cons kv rest =>
    simp only [plot_job_results] at h
    by_cases h1 : firstBitString (((replaceComma kv.1).length : ℤ) - 2)
        ∈ processedKeys (kv :: rest)
    · by_cases h2 : secondBitString (((replaceComma kv.1).length : ℤ) - 2)
          ∈ processedKeys (kv :: rest)
      · rw [pyIndex, if_pos h1, pyIndex, if_pos h2] at h
        simp only [Except.ok.injEq, Prod.mk.injEq] at h
        rw [← h.1, ← h.2]
        exact min_le_max
      · rw [pyIndex, if_pos h1, pyIndex, if_neg h2] at h
        simp at h
    · rw [pyIndex, if_neg h1] at h
      simp at h

/-! ### The claims -/

/-- C1: for a register of length `N ≥ 2` and every computational-basis
state `x`, `AlternatingBitStringOracle` multiplies the amplitude at `x` by
`-1` exactly when the bits of `x` alternate (no two adjacent bits equal)
and leaves it unchanged otherwise; the operation is diagonal — the
amplitude the oracle leaves at `x` depends only on the amplitude that was
at `x`, because the within block's CNOTs are uncomputed. -/
theorem oracle_marks_alternating_strings (n : ℕ) (hn : 2 ≤ n) (ψ : QState n)
    (x : Basis n) :
    AlternatingBitStringOracle n ψ x = (if alternating n x then -1 else 1) * ψ x :=
  oracle_diag n hn ψ x

/-- A concrete three-qubit state for the oracle witness. -/
def wState3 : QState 3 := fun _ => 1

/-- The alternating three-bit string `010` for the oracle witness. -/
def wAlt3 : Basis 3 := altString 3 false

theorem oracle_marks_alternating_strings_witness :
    2 ≤ 3 ∧ AlternatingBitStringOracle 3 wState3 wAlt3
      = (if alternating 3 wAlt3 then -1 else 1) * wState3 wAlt3 :=
  ⟨by decide, oracle_marks_alternating_strings 3 (by decide) wState3 wAlt3⟩

/-- C2: for every `iterations ≥ 0` and `N ≥ 2`, `Grovers(iterations, N)`
allocates a register of exactly `N` qubits in `|0…0⟩`, applies `H` to each,
then applies `AlternatingBitStringOracle` followed by `Diffusion` exactly
`iterations` times in that order, measures every qubit, and returns a list
of exactly `N` measurement results, one per allocated qubit. -/
theorem grovers_shape (iterations n : ℕ) (_hn : 2 ≤ n) :
    GroversState iterations n
        = (fun ψ => Diffusion n (AlternatingBitStringOracle n ψ))^[iterations]
            (applyToEach n (applyHtilde n) (qubitList n) (initState n))
      ∧ (qubitList n).length = n
      ∧ ∀ r ∈ GroversOutcomes iterations n, r.length = n :=
  ⟨GroversState_iterate iterations n, qubitList_length n,
    GroversOutcomes_length iterations n⟩

theorem grovers_shape_witness :
    2 ≤ 2 ∧ (GroversState 1 2
        = (fun ψ => Diffusion 2 (AlternatingBitStringOracle 2 ψ))^[1]
            (applyToEach 2 (applyHtilde 2) (qubitList 2) (initState 2))
      ∧ (qubitList 2).length = 2
      ∧ ∀ r ∈ GroversOutcomes 1 2, r.length = 2) :=
  ⟨by decide, grovers_shape 1 2 (by decide)⟩

/-- C3: for every `N ≥ 2`, exactly two of the `2 ^ N` computational-basis
states receive the `-1` phase from `AlternatingBitStringOracle` — the
alternating strings `0101…` and `1010…`; equivalently, the predicate
"every pair of adjacent bits differs" checked by the XOR-then-controlled-Z
circuit has exactly two solutions. -/
theorem two_marked_states (n : ℕ) (hn : 2 ≤ n) :
    Finset.univ.filter (fun x : Basis n => oracleSign n (fwdChain n (n - 1) x) = -1)
        = {altString n false, altString n true}
      ∧ (Finset.univ.filter (fun x : Basis n => alternating n x)).card = 2 := by
  constructor
  · rw [← alternating_filter_eq n (by omega)]
    apply Finset.filter_congr
    intro x _
    unfold oracleSign
    constructor
    · intro hs
      by_contra halt
      rw [if_neg (fun hc => halt ((oracle_cond_iff n hn x).mp hc))] at hs
      norm_num at hs
    · intro halt
      rw [if_pos ((oracle_cond_iff n hn x).mpr halt)]
  · exact alternating_card n (by omega)

theorem two_marked_states_witness :
    2 ≤ 2 ∧ (Finset.univ.filter
          (fun x : Basis 2 => oracleSign 2 (fwdChain 2 (2 - 1) x) = -1)
        = {altString 2 false, altString 2 true}
      ∧ (Finset.univ.filter (fun x : Basis 2 => alternating 2 x)).card = 2) :=
  ⟨by decide, two_marked_states 2 (by decide)⟩

/-- C4 as stated is false: at `N = 2` the first Grover iteration leaves the
marked probability unchanged at `1/2` instead of increasing it, and at
`N = 3` the second iteration strictly decreases it (from `1` to `1/4`), so
neither the first iteration for every `N ≥ 2` nor each subsequent iterate
increases the marked probability. -/
theorem grover_iteration_increase_fails :
    ¬ (markedProb 2 (GroversState 0 2) < markedProb 2 (GroversState 1 2))
      ∧ markedProb 3 (GroversState 2 3) < markedProb 3 (GroversState 1 3) := by
  constructor
  · rw [markedProb_unchanged_n2]
    exact lt_irrefl _
  · exact markedProb_decreases_n3

/-- C4 amended: for every `N ≥ 3`, the first Grover iteration —
`AlternatingBitStringOracle` followed by `Diffusion` — applied to the
uniform superposition prepared in `Grovers` strictly increases the total
measurement probability of the marked alternating-bit states.  (At `N = 2`
the two marked states fill half the search space and the probability stays
at `1/2`, and past the optimal iterate later iterations can decrease it,
so neither is covered by the amended claim.) -/
theorem grover_first_iteration_increases (n : ℕ) (hn : 3 ≤ n) :
    markedProb n (GroversState 0 n) < markedProb n (GroversState 1 n) :=
  markedProb_first_iteration_incr n hn

theorem grover_first_iteration_increases_witness :
    3 ≤ 3 ∧ markedProb 3 (GroversState 0 3) < markedProb 3 (GroversState 1 3) :=
  ⟨by decide, grover_first_iteration_increases 3 (by decide)⟩

/-- C7: with the Q# runtime's array bounds checking,
`AlternatingBitStringOracle` fails exactly on registers of length 0 or 1 —
the apply block's access `qs[Length(qs) - 2]` does not exist there — while
`Diffusion` is well defined on a single-qubit register (`Most` yields an
empty control set) and fails exactly on the empty one (`Tail`). -/
theorem short_register_failures (n : ℕ) :
    (oracleChecked n = none ↔ n < 2) ∧ (diffusionChecked n = none ↔ n = 0) :=
  ⟨oracleChecked_none_iff n, diffusionChecked_none_iff n⟩

theorem short_register_failures_witness :
    oracleChecked 1 = none ∧ diffusionChecked 0 = none ∧
      oracleChecked 2 ≠ none ∧ diffusionChecked 1 ≠ none :=
  ⟨(short_register_failures 1).1.mpr (by decide),
    (short_register_failures 0).2.mpr rfl,
    fun h => absurd ((short_register_failures 2).1.mp h) (by decide),
    fun h => absurd ((short_register_failures 1).2.mp h) (by decide)⟩

/-- C8: on every register where the operation is defined (`N ≥ 2` for the
oracle, `N ≥ 1` for `Diffusion`), each circuit is its own inverse:
applying `AlternatingBitStringOracle` twice returns every state unchanged,
and applying `Diffusion` twice returns every state unchanged up to the
global `4 ^ N` factor that the `√2`-scaled Hadamard layers of this
embedding carry — i.e. the notebook's unscaled operator squares to the
identity. -/
theorem both_circuits_involutive (n : ℕ) :
    (2 ≤ n → ∀ ψ : QState n,
        AlternatingBitStringOracle n (AlternatingBitStringOracle n ψ) = ψ)
      ∧ (1 ≤ n → ∀ ψ : QState n,
        Diffusion n (Diffusion n ψ) = fun x => (4 : ℚ) ^ n * ψ x) :=
  ⟨fun _ ψ => oracle_involutive n ψ, fun hn ψ => diffusion_involutive n hn ψ⟩

/-- A concrete non-uniform two-qubit state for the involution witness. -/
def wState2 : QState 2 := fun x => if x (0 : Fin 2) then 3 else -1

theorem both_circuits_involutive_witness :
    (2 ≤ 2 ∧ AlternatingBitStringOracle 2 (AlternatingBitStringOracle 2 wState2)
        = wState2)
      ∧ (1 ≤ 2 ∧ Diffusion 2 (Diffusion 2 wState2)
        = fun x => (4 : ℚ) ^ 2 * wState2 x) :=
  ⟨⟨by decide, (both_circuits_involutive 2).1 (by decide) wState2⟩,
    ⟨by decide, (both_circuits_involutive 2).2 (by decide) wState2⟩⟩

/-- C9: `plot_job_results` raises instead of plotting whenever the job
output is unusable — an IndexError when the output dictionary is empty
(it reads `keys[0]`), and a ValueError from `list.index` when the keys,
after removing commas, do not contain both bracketed alternating bit
strings of the length inferred from the first key — and when both are
present it always assigns `firstBitStringLoc ≤ secondBitStringLoc` via
`min`/`max` before plotting. -/
theorem plot_job_results_behaviour (output : List (PyStr × ℕ)) :
    (plot_job_results output = .error .indexError ↔ output = [])
      ∧ (plot_job_results output = .error .valueError
        ↔ output ≠ [] ∧ (firstBitString (inferredKeyLen output) ∉ processedKeys output
            ∨ secondBitString (inferredKeyLen output) ∉ processedKeys output))
      ∧ ∀ i j : ℕ, plot_job_results output = .ok (i, j) → i ≤ j :=
  ⟨plot_indexError_iff output, plot_valueError_iff output,
    fun i j h => plot_ok_sorted output i j h⟩

/-- A job output containing both target keys (with commas, as the cloud
service prints them) and one further key. -/
def wOutputGood : List (PyStr × ℕ) :=
  [("[0,1,0]".toList, 250), ("[1,0,1]".toList, 240), ("[0,0,0]".toList, 10)]

/-- A job output whose only key is not an alternating bit string. -/
def wOutputBad : List (PyStr × ℕ) := [("[1,1]".toList, 5)]

theorem plot_job_results_behaviour_witness :
    plot_job_results ([] : List (PyStr × ℕ)) = .error .indexError
      ∧ plot_job_results wOutputBad = .error .valueError
      ∧ (0 : ℕ) ≤ 1 :=
  ⟨(plot_job_results_behaviour []).1.mpr rfl,
    (plot_job_results_behaviour wOutputBad).2.1.mpr
      ⟨by simp [wOutputBad], Or.inl (by decide)⟩,
    (plot_job_results_behaviour wOutputGood).2.2 0 1 rfl⟩

end GroverNotebook
